import Mathlib

/-!
# Verification of the DeepReisz training/checkpoint/prediction core

Shallow embedding of `src/advreisz/deepreisz/nnreisz.py` (class `DeepReisz`):
the `_train` epoch loop with per-epoch checkpointing, validation-based early
stopping, the logger hook, and the `predict` aggregation policies.

Modelling conventions:
* The learner model is an abstract type `M`.  One epoch's worth of mini-batch
  optimizer steps (the inner `for it, (xb,) in enumerate(self.train_dl)` loop,
  whose shuffling is randomized and opaque) is an abstract update function
  `upd : Nat → M → M`, so the learner after epoch `e` is `upd e` applied to
  the learner before epoch `e`.
* The validation loss `np.mean(torch.mean(-2*moment_fn(Xval, learner) +
  learner(Xval)**2)...)` is an abstract function `f : M → ℚ`; Python floats
  are idealized as exact rationals (no NaN).  `min_eval` starts at `np.inf`,
  modelled as `Option ℚ` with `none = +∞`.
* `torch.save(model, path)` appends `(key, model)` to a write log; the file
  system semantics of overwriting is "last write wins" (`storeLookup`).
  `torch.load` of an absent path raises `FileNotFoundError`, modelled as
  `Except.error PredictErr.notFound`.
* Python's `self.n_epochs = epoch + 1` reads the loop variable `epoch`, which
  is unbound when `range(n_epochs)` was empty; this raises a `NameError`,
  modelled as `Except.error TrainError.unboundVariable`.
* `brokeAt` records which exit the epoch loop took (the `break` statement vs.
  natural exhaustion of `range(n_epochs)`): it is control-flow ghost data
  that does not influence any computed value.
-/

/- The Batteries rational-number operations are `@[irreducible]`, which blocks
`decide`/`rfl` evaluation of concrete runs; expose them for this file. -/
attribute [local semireducible] Rat.add Rat.sub Rat.mul Rat.inv Rat.ofScientific

/-- A checkpoint key: the file `epoch{i}` or the file `earlystop` inside the
run directory (`DeepReisz._train`, `torch.save` calls). -/
inductive CKey where
  | epoch (i : Nat)
  | earlystop
deriving DecidableEq, Repr

/-- The mutable state of the `_train` epoch loop: the learner, the write log of
`torch.save` calls, the epochs at which the logger hook was invoked, and the
early-stopping bookkeeping (`min_eval`, `time_since_last_improvement`,
`best_learner_state_dict`). -/
structure LoopState (M : Type) where
  learner : M
  chks : List (CKey × M)
  logs : List Nat
  minEval : Option ℚ
  tsli : Nat
  best : M
deriving Repr

/-- Python's `min_eval > curr` where `min_eval` may be `np.inf` (`none`). -/
def minGT : Option ℚ → ℚ → Bool
  | none, _ => true
  | some m, c => decide (c < m)

/-- The body of one iteration of `for epoch in range(n_epochs)` in
`DeepReisz._train`: run the mini-batches (`upd e`), save the epoch checkpoint,
then (when a validation set is present, `vloss = some f`) run the validation /
early-stop check, and finally call the logger.  Returns the new state and
whether the `break` statement fired. -/
def epochBody {M : Type} (upd : Nat → M → M) (vloss : Option (M → ℚ))
    (rounds : Nat) (hasLogger : Bool) (e : Nat) (s : LoopState M) :
    LoopState M × Bool :=
  let l1 := upd e s.learner
  let s1 := { s with learner := l1, chks := s.chks ++ [(CKey.epoch e, l1)] }
  match vloss with
  | none =>
      (if hasLogger then { s1 with logs := s1.logs ++ [e] } else s1, false)
  | some f =>
      let curr := f l1
      if minGT s1.minEval curr then
        let s2 := { s1 with minEval := some curr, tsli := 0, best := l1 }
        (if hasLogger then { s2 with logs := s2.logs ++ [e] } else s2, false)
      else
        let s2 := { s1 with tsli := s1.tsli + 1 }
        if s2.tsli > rounds then (s2, true)
        else (if hasLogger then { s2 with logs := s2.logs ++ [e] } else s2, false)

/-- The epoch loop of `DeepReisz._train`, by remaining-iteration count:
`trainGo upd vloss rounds hasLogger fuel e s last` runs epochs
`e, e+1, …, e+fuel-1` starting from state `s`, where `last` is the value the
loop variable `epoch` held on entry (`none` = not yet bound).  Returns the
final state, the final value of `epoch`, and the epoch at which `break` fired
(if it did). -/
def trainGo {M : Type} (upd : Nat → M → M) (vloss : Option (M → ℚ))
    (rounds : Nat) (hasLogger : Bool) :
    Nat → Nat → LoopState M → Option Nat → LoopState M × Option Nat × Option Nat
  | 0, _, s, last => (s, last, none)
  | fuel + 1, e, s, _ =>
      match epochBody upd vloss rounds hasLogger e s with
      | (s1, true) => (s1, some e, some e)
      | (s1, false) => trainGo upd vloss rounds hasLogger fuel (e + 1) s1 (some e)

/-- Raised when `self.n_epochs = epoch + 1` reads the unbound loop variable
(`range(n_epochs)` was empty, so the `for` body never ran). -/
inductive TrainError where
  | unboundVariable
deriving DecidableEq, Repr

/-- The observable outcome of `DeepReisz._train`: the write log of checkpoint
saves, the epochs at which the logger was invoked, the recorded
`self.n_epochs`, which epoch (if any) the `break` fired at, and the learner
object as left by `_train` (restored to the best snapshot when a validation
set was used). -/
structure TrainResult (M : Type) where
  checkpoints : List (CKey × M)
  loggerCalls : List Nat
  n_epochs_run : Nat
  brokeAt : Option Nat
  learner : M
deriving Repr

/-- Embedding of `DeepReisz._train`: initialization of the early-stopping state (when
`Xval is not None`), the epoch loop, `self.n_epochs = epoch + 1`, and the
final restore-and-save of the best snapshot under the `earlystop` key. -/
def trainRun {M : Type} (upd : Nat → M → M) (vloss : Option (M → ℚ))
    (rounds n_epochs : Nat) (hasLogger : Bool) (init : M) :
    Except TrainError (TrainResult M) :=
  let s0 : LoopState M := ⟨init, [], [], none, 0, init⟩
  match trainGo upd vloss rounds hasLogger n_epochs 0 s0 none with
  | (s, last, brokeAt) =>
    match last with
    | none => .error .unboundVariable
    | some e =>
      match vloss with
      | none => .ok ⟨s.chks, s.logs, e + 1, brokeAt, s.learner⟩
      | some _ => .ok ⟨s.chks ++ [(CKey.earlystop, s.best)], s.logs, e + 1,
                       brokeAt, s.best⟩

/-- The learner after `k` completed epochs (mini-batch loops `0, …, k-1`). -/
def netIter {M : Type} (upd : Nat → M → M) (init : M) : Nat → M
  | 0 => init
  | k + 1 => upd k (netIter upd init k)

/-- Last-write-wins lookup in the checkpoint write log (`torch.save`
overwrites an existing file; `torch.load` reads the current content). -/
def storeLookup {M : Type} (chks : List (CKey × M)) (k : CKey) : Option M :=
  (chks.reverse.find? (fun p => decide (p.1 = k))).map Prod.snd

/-- The epoch-indexed entries of the checkpoint store, in write order. -/
def epochEntries {M : Type} (chks : List (CKey × M)) : List (Nat × M) :=
  chks.filterMap (fun p =>
    match p.1 with
    | CKey.epoch i => some (i, p.2)
    | CKey.earlystop => none)

/-! ## Analysis of the early-stopping state machine

`lossSeq upd init f i` is the validation loss the code observes at the end of
epoch `i`; `improves`, `lastImp`, `tsliSpec`, `minLoss` are the specification
counterparts of the loop variables `time_since_last_improvement` and
`min_eval`. -/

/-- The validation loss observed at the end of epoch `i`. -/
def lossSeq {M : Type} (upd : Nat → M → M) (init : M) (f : M → ℚ) (i : Nat) : ℚ :=
  f (netIter upd init (i + 1))

/-- Epoch `i` strictly improves on every previously observed validation loss
(vacuously true at epoch `0`, matching `min_eval = np.inf`). -/
def improves (g : Nat → ℚ) (i : Nat) : Prop := ∀ j < i, g i < g j

instance improvesDec (g : Nat → ℚ) (i : Nat) : Decidable (improves g i) := by
  unfold improves; infer_instance

/-- The last epoch `≤ i` at which the validation loss strictly improved. -/
def lastImp (g : Nat → ℚ) : Nat → Nat
  | 0 => 0
  | i + 1 => if improves g (i + 1) then i + 1 else lastImp g i

/-- The value of `time_since_last_improvement` after the check of epoch `i`. -/
def tsliSpec (g : Nat → ℚ) (i : Nat) : Nat := i - lastImp g i

/-- The minimum validation loss observed over epochs `0, …, i`. -/
def minLoss (g : Nat → ℚ) : Nat → ℚ
  | 0 => g 0
  | i + 1 => min (minLoss g i) (g (i + 1))

theorem improves_zero (g : Nat → ℚ) : improves g 0 := by
  intro j hj; omega

theorem lastImp_le (g : Nat → ℚ) : ∀ i, lastImp g i ≤ i
  | 0 => Nat.le_refl _
  | i + 1 => by
    unfold lastImp
    split
    · exact Nat.le_refl _
    · exact Nat.le_trans (lastImp_le g i) (Nat.le_succ i)

theorem lastImp_improves (g : Nat → ℚ) : ∀ i, improves g (lastImp g i)
  | 0 => improves_zero g
  | i + 1 => by
    unfold lastImp
    split
    · assumption
    · exact lastImp_improves g i

theorem not_improves_between (g : Nat → ℚ) :
    ∀ i j, lastImp g i < j → j ≤ i → ¬ improves g j
  | 0, j, h1, h2 => by omega
  | i + 1, j, h1, h2 => by
    by_cases hi : improves g (i + 1)
    · rw [lastImp, if_pos hi] at h1; omega
    · rw [lastImp, if_neg hi] at h1
      rcases Nat.lt_or_ge j (i + 1) with hj | hj
      · exact not_improves_between g i j h1 (by omega)
      · have : j = i + 1 := by omega
        subst this; exact hi

theorem minLoss_le (g : Nat → ℚ) : ∀ i j, j ≤ i → minLoss g i ≤ g j
  | 0, j, hj => by
    have : j = 0 := by omega
    subst this; exact le_refl _
  | i + 1, j, hj => by
    rcases Nat.lt_or_ge j (i + 1) with hj2 | hj2
    · exact le_trans (min_le_left _ _) (minLoss_le g i j (by omega))
    · have : j = i + 1 := by omega
      subst this; exact min_le_right _ _

theorem minLoss_exists (g : Nat → ℚ) : ∀ i, ∃ j ≤ i, minLoss g i = g j
  | 0 => ⟨0, Nat.le_refl _, rfl⟩
  | i + 1 => by
    rcases minLoss_exists g i with ⟨j, hj, hje⟩
    rcases le_total (minLoss g i) (g (i + 1)) with h | h
    · exact ⟨j, by omega, by rw [minLoss, min_eq_left h, hje]⟩
    · exact ⟨i + 1, Nat.le_refl _, by rw [minLoss, min_eq_right h]⟩

/-- Epoch `i + 1` improves exactly when its loss is strictly below the
running minimum (the code's `min_eval > self.curr_eval` test). -/
theorem improves_succ_iff (g : Nat → ℚ) (i : Nat) :
    improves g (i + 1) ↔ g (i + 1) < minLoss g i := by
  constructor
  · intro h
    rcases minLoss_exists g i with ⟨j, hj, hje⟩
    rw [hje]
    exact h j (by omega)
  · intro h j hj
    exact lt_of_lt_of_le h (minLoss_le g i j (by omega))

theorem minLoss_succ_of_improves (g : Nat → ℚ) (i : Nat)
    (h : improves g (i + 1)) : minLoss g (i + 1) = g (i + 1) := by
  rw [minLoss, min_eq_right (le_of_lt ((improves_succ_iff g i).mp h))]

theorem minLoss_succ_of_not_improves (g : Nat → ℚ) (i : Nat)
    (h : ¬ improves g (i + 1)) : minLoss g (i + 1) = minLoss g i := by
  rw [minLoss, min_eq_left (le_of_not_lt (fun hc => h ((improves_succ_iff g i).mpr hc)))]

theorem lastImp_eq_self_of_improves (g : Nat → ℚ) :
    ∀ i, improves g i → lastImp g i = i
  | 0, _ => rfl
  | i + 1, h => by rw [lastImp, if_pos h]

theorem tsliSpec_zero (g : Nat → ℚ) : tsliSpec g 0 = 0 := rfl

theorem tsliSpec_of_improves (g : Nat → ℚ) (i : Nat) (h : improves g i) :
    tsliSpec g i = 0 := by
  rw [tsliSpec, lastImp_eq_self_of_improves g i h]; omega

theorem tsliSpec_succ_of_not_improves (g : Nat → ℚ) (i : Nat)
    (h : ¬ improves g (i + 1)) : tsliSpec g (i + 1) = tsliSpec g i + 1 := by
  rw [tsliSpec, tsliSpec, lastImp, if_neg h]
  have := lastImp_le g i
  omega

/-- The best retained snapshot is (one of) the epochs achieving the minimum
observed validation loss. -/
theorem lastImp_min (g : Nat → ℚ) : ∀ i j, j ≤ i → g (lastImp g i) ≤ g j
  | 0, j, hj => by
    have : j = 0 := by omega
    subst this; exact le_refl _
  | i + 1, j, hj => by
    by_cases hi : improves g (i + 1)
    · rw [lastImp, if_pos hi]
      rcases Nat.lt_or_ge j (i + 1) with hj2 | hj2
      · exact le_of_lt (hi j hj2)
      · have : j = i + 1 := by omega
        subst this; exact le_refl _
    · rw [lastImp, if_neg hi]
      rcases Nat.lt_or_ge j (i + 1) with hj2 | hj2
      · exact lastImp_min g i j (by omega)
      · have hje : j = i + 1 := by omega
        subst hje
        have := (improves_succ_iff g i).not.mp hi
        rcases minLoss_exists g i with ⟨j0, hj0, hj0e⟩
        have h1 : minLoss g i ≤ g (i + 1) := by
          rcases le_or_lt (minLoss g i) (g (i + 1)) with h | h
          · exact h
          · exact absurd h this
        calc g (lastImp g i) ≤ g j0 := lastImp_min g i j0 (by omega)
          _ = minLoss g i := hj0e.symm
          _ ≤ g (i + 1) := h1

/-! ## Canonical loop states

`canonNV`/`canonV` give the loop state at the top of the epoch-`e` iteration
(no validation set / validation set supplied), assuming the `break` has not
fired in epochs `< e`.  The loop-characterization lemmas below prove that the
code's state is exactly the canonical one. -/

/-- The checkpoint write log after epochs `0, …, e-1`. -/
def chksUpTo {M : Type} (upd : Nat → M → M) (init : M) (e : Nat) :
    List (CKey × M) :=
  (List.range e).map (fun i => (CKey.epoch i, netIter upd init (i + 1)))

/-- The logger invocations after epochs `0, …, e-1` (none when no logger is
configured). -/
def logsUpTo (hl : Bool) (e : Nat) : List Nat := if hl then List.range e else []

/-- Canonical state at the top of epoch `e`, no validation set. -/
def canonNV {M : Type} (upd : Nat → M → M) (init : M) (hl : Bool) (e : Nat) :
    LoopState M :=
  ⟨netIter upd init e, chksUpTo upd init e, logsUpTo hl e, none, 0, init⟩

/-- Canonical state at the top of epoch `e`, validation set supplied. -/
def canonV {M : Type} (upd : Nat → M → M) (init : M) (f : M → ℚ) (hl : Bool) :
    Nat → LoopState M
  | 0 => ⟨init, [], [], none, 0, init⟩
  | e + 1 =>
    ⟨netIter upd init (e + 1), chksUpTo upd init (e + 1), logsUpTo hl (e + 1),
     some (minLoss (lossSeq upd init f) e),
     tsliSpec (lossSeq upd init f) e,
     netIter upd init (lastImp (lossSeq upd init f) e + 1)⟩

theorem canonNV_zero {M : Type} (upd : Nat → M → M) (init : M) (hl : Bool) :
    canonNV upd init hl 0 = ⟨init, [], [], none, 0, init⟩ := by
  cases hl <;> rfl

theorem logsUpTo_succ (hl : Bool) (e : Nat) :
    logsUpTo hl (e + 1) = if hl then logsUpTo hl e ++ [e] else logsUpTo hl e := by
  cases hl <;> simp [logsUpTo, List.range_succ]

theorem chksUpTo_succ {M : Type} (upd : Nat → M → M) (init : M) (e : Nat) :
    chksUpTo upd init (e + 1) =
      chksUpTo upd init e ++ [(CKey.epoch e, netIter upd init (e + 1))] := by
  simp [chksUpTo, List.range_succ]

/-- One epoch of the loop without a validation set: save the checkpoint, call
the logger, never break. -/
theorem epochBody_none {M : Type} (upd : Nat → M → M) (init : M)
    (rounds : Nat) (hl : Bool) (e : Nat) :
    epochBody upd none rounds hl e (canonNV upd init hl e) =
      (canonNV upd init hl (e + 1), false) := by
  simp only [epochBody, canonNV, chksUpTo_succ, logsUpTo_succ, netIter]
  cases hl <;> simp

/-- One epoch of the loop with a validation set: the break fires exactly when
the updated `time_since_last_improvement` (= `tsliSpec`) exceeds the patience,
and in that case the logger call for this epoch is skipped. -/
theorem epochBody_some {M : Type} (upd : Nat → M → M) (init : M) (f : M → ℚ)
    (rounds : Nat) (hl : Bool) (e : Nat) :
    epochBody upd (some f) rounds hl e (canonV upd init f hl e) =
      (if rounds < tsliSpec (lossSeq upd init f) e
        then { canonV upd init f hl (e + 1) with logs := logsUpTo hl e }
        else canonV upd init f hl (e + 1),
       decide (rounds < tsliSpec (lossSeq upd init f) e)) := by
  set g := lossSeq upd init f with hg
  cases e with
  | zero =>
    have h0 : tsliSpec g 0 = 0 := rfl
    have hlt : ¬ rounds < tsliSpec g 0 := by omega
    rw [if_neg hlt, decide_eq_false hlt]
    show epochBody upd (some f) rounds hl 0 ⟨init, [], [], none, 0, init⟩ = _
    simp only [epochBody, minGT, canonV, chksUpTo, logsUpTo, netIter]
    have : f (upd 0 init) = g 0 := rfl
    cases hl <;>
      simp [this, minLoss, tsliSpec, lastImp, List.range_succ, netIter]
  | succ e =>
    have hcurr : f (upd (e + 1) (netIter upd init (e + 1))) = g (e + 1) := rfl
    by_cases himp : improves g (e + 1)
    · have hlt : g (e + 1) < minLoss g e := (improves_succ_iff g e).mp himp
      have ht : tsliSpec g (e + 1) = 0 := tsliSpec_of_improves g (e + 1) himp
      have hnb : ¬ rounds < tsliSpec g (e + 1) := by omega
      rw [if_neg hnb, decide_eq_false hnb]
      simp only [epochBody, canonV, minGT, hcurr, decide_eq_true_eq, if_pos hlt,
        minLoss_succ_of_improves g e himp, ht,
        lastImp_eq_self_of_improves g (e + 1) himp,
        chksUpTo_succ, logsUpTo_succ]
      cases hl <;> simp [netIter]
    · have hge : ¬ g (e + 1) < minLoss g e := fun hc => himp ((improves_succ_iff g e).mpr hc)
      have ht : tsliSpec g (e + 1) = tsliSpec g e + 1 :=
        tsliSpec_succ_of_not_improves g e himp
      have hmin : minLoss g (e + 1) = minLoss g e :=
        minLoss_succ_of_not_improves g e himp
      have hli : lastImp g (e + 1) = lastImp g e := by rw [lastImp, if_neg himp]
      by_cases hbr : rounds < tsliSpec g e + 1
      · rw [if_pos (by omega : rounds < tsliSpec g (e + 1)),
          decide_eq_true (by omega : rounds < tsliSpec g (e + 1))]
        simp only [epochBody, canonV, minGT, hcurr, decide_eq_true_eq, if_neg hge,
          hmin, ht, hli, chksUpTo_succ, logsUpTo_succ]
        simp [hbr, netIter]
      · rw [if_neg (by omega : ¬ rounds < tsliSpec g (e + 1)),
          decide_eq_false (by omega : ¬ rounds < tsliSpec g (e + 1))]
        simp only [epochBody, canonV, minGT, hcurr, decide_eq_true_eq, if_neg hge,
          hmin, ht, hli, chksUpTo_succ, logsUpTo_succ]
        cases hl <;> simp [hbr, netIter]

/-- The epoch (if any) in `[e, e + fuel)` at which the break first fires:
the first epoch whose updated improvement counter exceeds the patience. -/
def brkAt (g : Nat → ℚ) (rounds : Nat) : Nat → Nat → Option Nat
  | _, 0 => none
  | e, fuel + 1 =>
      if rounds < tsliSpec g e then some e else brkAt g rounds (e + 1) fuel

theorem brkAt_eq_some_iff (g : Nat → ℚ) (rounds : Nat) :
    ∀ fuel e b, brkAt g rounds e fuel = some b ↔
      (e ≤ b ∧ b < e + fuel ∧ rounds < tsliSpec g b ∧
        ∀ x, e ≤ x → x < b → tsliSpec g x ≤ rounds)
  | 0, e, b => by
    simp only [brkAt]
    constructor
    · intro h; cases h
    · intro ⟨h1, h2, _, _⟩; omega
  | fuel + 1, e, b => by
    rw [brkAt]
    by_cases hbe : rounds < tsliSpec g e
    · rw [if_pos hbe]
      constructor
      · intro h
        cases h
        exact ⟨Nat.le_refl _, by omega, hbe, fun x hx1 hx2 => by omega⟩
      · intro ⟨h1, h2, h3, h4⟩
        rcases Nat.eq_or_lt_of_le h1 with he | he
        · rw [he]
        · exact absurd hbe (by have := h4 e (Nat.le_refl _) he; omega)
    · rw [if_neg hbe]
      rw [brkAt_eq_some_iff g rounds fuel (e + 1) b]
      constructor
      · intro ⟨h1, h2, h3, h4⟩
        refine ⟨by omega, by omega, h3, fun x hx1 hx2 => ?_⟩
        rcases Nat.eq_or_lt_of_le hx1 with hx | hx
        · rw [← hx]; omega
        · exact h4 x hx hx2
      · intro ⟨h1, h2, h3, h4⟩
        have hne : e ≠ b := by
          intro hc; rw [← hc] at h3; omega
        exact ⟨by omega, by omega, h3, fun x hx1 hx2 => h4 x (by omega) hx2⟩

theorem brkAt_eq_none_iff (g : Nat → ℚ) (rounds : Nat) :
    ∀ fuel e, brkAt g rounds e fuel = none ↔
      ∀ x, e ≤ x → x < e + fuel → tsliSpec g x ≤ rounds
  | 0, e =>
    ⟨fun _ x hx1 hx2 => absurd hx2 (by omega), fun _ => rfl⟩
  | fuel + 1, e => by
    rw [brkAt]
    by_cases hbe : rounds < tsliSpec g e
    · rw [if_pos hbe]
      constructor
      · intro h; cases h
      · intro h
        have := h e (Nat.le_refl _) (by omega)
        omega
    · rw [if_neg hbe]
      rw [brkAt_eq_none_iff g rounds fuel (e + 1)]
      constructor
      · intro h x hx1 hx2
        rcases Nat.eq_or_lt_of_le hx1 with hx | hx
        · rw [← hx]; omega
        · exact h x hx (by omega)
      · intro h x hx1 hx2
        exact h x (by omega) (by omega)

/-- Running the loop without a validation set from the canonical state: all
`fuel` epochs execute, no break. -/
theorem trainGo_none {M : Type} (upd : Nat → M → M) (init : M) (rounds : Nat)
    (hl : Bool) :
    ∀ fuel e last,
      trainGo upd none rounds hl fuel e (canonNV upd init hl e) last =
        (canonNV upd init hl (e + fuel),
          if fuel = 0 then last else some (e + fuel - 1), none)
  | 0, e, last => by simp [trainGo]
  | fuel + 1, e, last => by
    rw [trainGo, epochBody_none upd init rounds hl e]
    dsimp only
    rw [trainGo_none upd init rounds hl fuel (e + 1) (some e)]
    have h1 : e + 1 + fuel = e + (fuel + 1) := by omega
    rcases Nat.eq_zero_or_pos fuel with hf | hf
    · subst hf
      simp
    · rw [if_neg (by omega), if_neg (by omega), h1]

/-- Running the loop with a validation set from the canonical state: either
the break fires at the first epoch whose counter exceeds the patience (and
that epoch's logger call is skipped), or all `fuel` epochs execute. -/
theorem trainGo_some {M : Type} (upd : Nat → M → M) (init : M) (f : M → ℚ)
    (rounds : Nat) (hl : Bool) :
    ∀ fuel e last,
      trainGo upd (some f) rounds hl fuel e (canonV upd init f hl e) last =
        match brkAt (lossSeq upd init f) rounds e fuel with
        | some b => ({ canonV upd init f hl (b + 1) with logs := logsUpTo hl b },
            some b, some b)
        | none => (canonV upd init f hl (e + fuel),
            if fuel = 0 then last else some (e + fuel - 1), none)
  | 0, e, last => by simp [trainGo, brkAt]
  | fuel + 1, e, last => by
    rw [trainGo, epochBody_some upd init f rounds hl e]
    by_cases hbe : rounds < tsliSpec (lossSeq upd init f) e
    · rw [if_pos hbe, decide_eq_true hbe, brkAt, if_pos hbe]
    · rw [if_neg hbe, decide_eq_false hbe]
      dsimp only
      rw [trainGo_some upd init f rounds hl fuel (e + 1) (some e)]
      rw [brkAt, if_neg hbe]
      rcases hb : brkAt (lossSeq upd init f) rounds (e + 1) fuel with _ | b
      · dsimp only
        rcases Nat.eq_zero_or_pos fuel with hf | hf
        · subst hf; simp
        · have h1 : e + 1 + fuel = e + (fuel + 1) := by omega
          rw [if_neg (by omega), if_neg (by omega), h1]
      · rfl

/-- Running `fit` with `n_epochs = 0`: the loop body never runs, so reading `epoch`
in `self.n_epochs = epoch + 1` raises `NameError`. -/
theorem trainRun_zero {M : Type} (upd : Nat → M → M) (vloss : Option (M → ℚ))
    (rounds : Nat) (hl : Bool) (init : M) :
    trainRun upd vloss rounds 0 hl init = .error .unboundVariable := rfl

/-- Full characterization of `_train` without a validation set. -/
theorem trainRun_none_eq {M : Type} (upd : Nat → M → M) (init : M)
    (rounds n : Nat) (hl : Bool) (hn : 1 ≤ n) :
    trainRun upd none rounds n hl init =
      .ok ⟨chksUpTo upd init n, logsUpTo hl n, n, none, netIter upd init n⟩ := by
  have h0 : (⟨init, [], [], none, 0, init⟩ : LoopState M) = canonNV upd init hl 0 :=
    (canonNV_zero upd init hl).symm
  rw [trainRun]
  dsimp only
  rw [h0, trainGo_none upd init rounds hl n 0 none, if_neg (by omega : ¬ n = 0)]
  dsimp only [canonNV]
  rw [Nat.zero_add]
  have h2 : n - 1 + 1 = n := by omega
  rw [h2]

/-- Full characterization of `_train` with a validation set: either the break
fires at the first epoch `b` whose improvement counter exceeds the patience
(then epochs `0, …, b` ran and the logger skipped epoch `b`), or all `n`
epochs ran.  In both cases the learner is restored to the best snapshot and
that snapshot is additionally saved under `earlystop`. -/
theorem trainRun_some_eq {M : Type} (upd : Nat → M → M) (init : M) (f : M → ℚ)
    (rounds n : Nat) (hl : Bool) (hn : 1 ≤ n) :
    trainRun upd (some f) rounds n hl init =
      match brkAt (lossSeq upd init f) rounds 0 n with
      | some b =>
          .ok ⟨chksUpTo upd init (b + 1) ++
                [(CKey.earlystop,
                  netIter upd init (lastImp (lossSeq upd init f) b + 1))],
               logsUpTo hl b, b + 1, some b,
               netIter upd init (lastImp (lossSeq upd init f) b + 1)⟩
      | none =>
          .ok ⟨chksUpTo upd init n ++
                [(CKey.earlystop,
                  netIter upd init (lastImp (lossSeq upd init f) (n - 1) + 1))],
               logsUpTo hl n, n, none,
               netIter upd init (lastImp (lossSeq upd init f) (n - 1) + 1)⟩ := by
  have h0 : (⟨init, [], [], none, 0, init⟩ : LoopState M) = canonV upd init f hl 0 := rfl
  rw [trainRun]
  dsimp only
  rw [h0, trainGo_some upd init f rounds hl n 0 none]
  rcases hb : brkAt (lossSeq upd init f) rounds 0 n with _ | b
  · dsimp only
    rw [if_neg (by omega : ¬ n = 0), Nat.zero_add]
    obtain ⟨n', rfl⟩ : ∃ n', n = n' + 1 := ⟨n - 1, by omega⟩
    dsimp only [canonV]
    have h2 : n' + 1 - 1 = n' := by omega
    rw [h2]
  · dsimp only [canonV]

theorem epochEntries_chksUpTo {M : Type} (upd : Nat → M → M) (init : M) (k : Nat) :
    epochEntries (chksUpTo upd init k) =
      (List.range k).map (fun i => (i, netIter upd init (i + 1))) := by
  induction k with
  | zero => rfl
  | succ k ih =>
    rw [chksUpTo_succ, List.range_succ, epochEntries, List.filterMap_append,
      List.map_append, ← epochEntries, ih]
    rfl

theorem epochEntries_append_earlystop {M : Type} (xs : List (CKey × M)) (m : M) :
    epochEntries (xs ++ [(CKey.earlystop, m)]) = epochEntries xs := by
  rw [epochEntries, List.filterMap_append, ← epochEntries]
  simp [epochEntries]

theorem storeLookup_append_eq {M : Type} (xs : List (CKey × M)) (key : CKey) (m : M) :
    storeLookup (xs ++ [(key, m)]) key = some m := by
  simp [storeLookup, List.reverse_append]

theorem storeLookup_append_ne {M : Type} (xs : List (CKey × M)) (key key' : CKey)
    (m : M) (hne : key' ≠ key) :
    storeLookup (xs ++ [(key', m)]) key = storeLookup xs key := by
  simp [storeLookup, List.reverse_append, List.find?_cons_of_neg, hne]

theorem storeLookup_chksUpTo_earlystop {M : Type} (upd : Nat → M → M) (init : M)
    (k : Nat) : storeLookup (chksUpTo upd init k) CKey.earlystop = none := by
  rw [storeLookup, Option.map_eq_none', List.find?_eq_none]
  intro p hp
  rw [List.mem_reverse, chksUpTo, List.mem_map] at hp
  rcases hp with ⟨i, _, rfl⟩
  simp

theorem storeLookup_chksUpTo_epoch {M : Type} (upd : Nat → M → M) (init : M) :
    ∀ k i, i < k →
      storeLookup (chksUpTo upd init k) (CKey.epoch i) = some (netIter upd init (i + 1))
  | 0, i, h => absurd h (by omega)
  | k + 1, i, h => by
    rw [chksUpTo_succ]
    by_cases hik : i = k
    · subst hik
      exact storeLookup_append_eq _ _ _
    · rw [storeLookup_append_ne _ _ _ _ (by simp only [ne_eq, CKey.epoch.injEq]; omega)]
      exact storeLookup_chksUpTo_epoch upd init k i (by omega)

/-! ## Training-side claims -/

/-- Claim C1: for every `fit` call that terminates normally, the epoch-indexed
checkpoints are exactly one per epoch index `0, …, n_epochs_run - 1`, in
order, with no gaps and no extras — whether or not early stopping fired — and
the checkpoint of epoch `i` holds exactly the learner as it stands after
epoch `i`'s mini-batches (`netIter upd init (i+1)`), i.e. it was written
after the mini-batch loop and before the validation/early-stop check could
`break` (the break epoch's checkpoint is present). -/
theorem C1_one_checkpoint_per_epoch {M : Type} (upd : Nat → M → M)
    (vloss : Option (M → ℚ)) (rounds n_epochs : Nat) (hl : Bool) (init : M)
    (r : TrainResult M) (h : trainRun upd vloss rounds n_epochs hl init = .ok r) :
    epochEntries r.checkpoints =
      (List.range r.n_epochs_run).map (fun i => (i, netIter upd init (i + 1))) := by
  cases n_epochs with
  | zero => rw [trainRun_zero] at h; cases h
  | succ n =>
    cases vloss with
    | none =>
      rw [trainRun_none_eq upd init rounds (n + 1) hl (by omega)] at h
      rw [Except.ok.injEq] at h
      subst h
      exact epochEntries_chksUpTo upd init (n + 1)
    | some f =>
      rw [trainRun_some_eq upd init f rounds (n + 1) hl (by omega)] at h
      rcases hb : brkAt (lossSeq upd init f) rounds 0 (n + 1) with _ | b <;>
        rw [hb] at h <;> rw [Except.ok.injEq] at h <;> subst h <;>
        rw [epochEntries_append_earlystop] <;>
        exact epochEntries_chksUpTo upd init _

/-- Witness run for C1: two epochs, no validation set. -/
theorem C1_witness :
    trainRun (fun e (m : ℚ) => m + e) none 20 3 true 0 =
      .ok ⟨[(CKey.epoch 0, 0), (CKey.epoch 1, 1), (CKey.epoch 2, 3)],
           [0, 1, 2], 3, none, 3⟩ ∧
    epochEntries (⟨[(CKey.epoch 0, 0), (CKey.epoch 1, 1), (CKey.epoch 2, 3)],
           [0, 1, 2], 3, none, 3⟩ : TrainResult ℚ).checkpoints =
      (List.range 3).map (fun i => (i, netIter (fun e (m : ℚ) => m + e) 0 (i + 1))) :=
  ⟨by rfl, C1_one_checkpoint_per_epoch (fun e (m : ℚ) => m + e) none 20 3 true 0 _ (by rfl)⟩

/-- Claim C2: whenever `fit` ran with a validation set and returned, the
`earlystop` checkpoint exists, holds exactly the learner object `_train`
returned, and that learner is the deep-copied snapshot of (an) epoch whose
validation loss is the minimum over all observed epochs — also when training
ran to natural completion. -/
theorem C2_restore_best {M : Type} (upd : Nat → M → M) (f : M → ℚ)
    (rounds n_epochs : Nat) (hl : Bool) (init : M) (r : TrainResult M)
    (h : trainRun upd (some f) rounds n_epochs hl init = .ok r) :
    storeLookup r.checkpoints CKey.earlystop = some r.learner ∧
    ∃ j < r.n_epochs_run, r.learner = netIter upd init (j + 1) ∧
      ∀ i < r.n_epochs_run,
        f (netIter upd init (j + 1)) ≤ f (netIter upd init (i + 1)) := by
  cases n_epochs with
  | zero => rw [trainRun_zero] at h; cases h
  | succ n =>
    rw [trainRun_some_eq upd init f rounds (n + 1) hl (by omega)] at h
    rcases hb : brkAt (lossSeq upd init f) rounds 0 (n + 1) with _ | b <;>
      rw [hb] at h <;> rw [Except.ok.injEq] at h <;> subst h <;> dsimp only
    · have h1 : n + 1 - 1 = n := by omega
      rw [h1]
      refine ⟨storeLookup_append_eq _ _ _,
        lastImp (lossSeq upd init f) n, ?_, rfl, fun i hi => ?_⟩
      · have := lastImp_le (lossSeq upd init f) n
        omega
      · exact lastImp_min (lossSeq upd init f) n i (by omega)
    · refine ⟨storeLookup_append_eq _ _ _,
        lastImp (lossSeq upd init f) b, ?_, rfl, fun i hi => ?_⟩
      · have := lastImp_le (lossSeq upd init f) b
        omega
      · exact lastImp_min (lossSeq upd init f) b i (by omega)

/-- Witness for C2: validation loss grows, patience 0: improvement at epoch
0, break at epoch 1, learner restored to the epoch-0 snapshot. -/
theorem C2_witness :
    trainRun (fun e (m : ℚ) => m + e) (some fun q => q) 0 2 false 0 =
      .ok ⟨[(CKey.epoch 0, 0), (CKey.epoch 1, 1), (CKey.earlystop, 0)],
           [], 2, some 1, 0⟩ ∧
    (storeLookup
        (⟨[(CKey.epoch 0, 0), (CKey.epoch 1, 1), (CKey.earlystop, 0)],
          [], 2, some 1, (0 : ℚ)⟩ : TrainResult ℚ).checkpoints CKey.earlystop =
      some (0 : ℚ) ∧
    ∃ j < 2, (0 : ℚ) = netIter (fun e (m : ℚ) => m + e) 0 (j + 1) ∧
      ∀ i < 2, (fun q => q) (netIter (fun e (m : ℚ) => m + e) 0 (j + 1)) ≤
        (fun q => q) (netIter (fun e (m : ℚ) => m + e) 0 (i + 1))) :=
  ⟨by rfl,
   C2_restore_best (fun e (m : ℚ) => m + e) (fun q => q) 0 2 false 0
     ⟨[(CKey.epoch 0, 0), (CKey.epoch 1, 1), (CKey.earlystop, 0)], [], 2, some 1, 0⟩
     (by rfl)⟩

theorem tsliSpec_succ_le (g : Nat → ℚ) (i : Nat) :
    tsliSpec g (i + 1) ≤ tsliSpec g i + 1 := by
  by_cases h : improves g (i + 1)
  · rw [tsliSpec_of_improves g (i + 1) h]; omega
  · rw [tsliSpec_succ_of_not_improves g i h]

/-- Claim C3: with a validation set, the loop breaks at epoch `b` exactly when
`b` is `earlystop_rounds + 1` epochs after the last strict improvement
(epochs in between all non-improving), and no earlier epoch's counter
exceeded the patience — i.e. early stopping fires after exactly
`earlystop_rounds + 1` consecutive non-improving epochs, no later and never
earlier.  (`tsliSpec` is the value of `time_since_last_improvement` after
each epoch's check: it resets to `0` exactly on strict improvement and
increments by one otherwise.) -/
theorem C3_early_stop_timing {M : Type} (upd : Nat → M → M) (f : M → ℚ)
    (rounds n_epochs : Nat) (hl : Bool) (init : M) (r : TrainResult M)
    (h : trainRun upd (some f) rounds n_epochs hl init = .ok r) (b : Nat) :
    r.brokeAt = some b ↔
      (b < n_epochs ∧
       improves (lossSeq upd init f) (lastImp (lossSeq upd init f) b) ∧
       (∀ i, lastImp (lossSeq upd init f) b < i → i ≤ b →
          ¬ improves (lossSeq upd init f) i) ∧
       b = lastImp (lossSeq upd init f) b + (rounds + 1) ∧
       ∀ x < b, tsliSpec (lossSeq upd init f) x ≤ rounds) := by
  set g := lossSeq upd init f with hg
  cases n_epochs with
  | zero => rw [trainRun_zero] at h; cases h
  | succ n =>
    rw [trainRun_some_eq upd init f rounds (n + 1) hl (by omega)] at h
    rcases hbr : brkAt g rounds 0 (n + 1) with _ | b0 <;>
      rw [hbr] at h <;> rw [Except.ok.injEq] at h <;> subst h <;> dsimp only
    · constructor
      · intro hc; cases hc
      · intro ⟨hb1, _, _, hb4, _⟩
        have hle := lastImp_le g b
        have := (brkAt_eq_none_iff g rounds (n + 1) 0).mp hbr b (by omega) (by omega)
        rw [tsliSpec] at this
        omega
    · have hch := (brkAt_eq_some_iff g rounds (n + 1) 0 b0).mp hbr
      obtain ⟨-, hb0lt, hb0gt, hb0min⟩ := hch
      constructor
      · intro hc
        rw [Option.some.injEq] at hc
        subst hc
        have hle := lastImp_le g b0
        have hts : tsliSpec g b0 = rounds + 1 := by
          cases b0 with
          | zero => rw [tsliSpec_zero] at hb0gt; omega
          | succ b' =>
            have h1 := tsliSpec_succ_le g b'
            have h2 := hb0min b' (by omega) (by omega)
            omega
        refine ⟨by omega, lastImp_improves g b0,
          fun i h1 h2 => not_improves_between g b0 i h1 h2, ?_,
          fun x hx => hb0min x (by omega) hx⟩
        rw [tsliSpec] at hts
        omega
      · intro ⟨hb1, _, _, hb4, hb5⟩
        have hle := lastImp_le g b
        have : brkAt g rounds 0 (n + 1) = some b := by
          rw [brkAt_eq_some_iff]
          exact ⟨by omega, by omega, by rw [tsliSpec]; omega,
            fun x _ hx => hb5 x hx⟩
        rw [hbr] at this
        rw [Option.some.injEq] at this
        rw [this]

/-- Witness for C3: growing validation loss, patience 0: the break at epoch 1
is exactly one epoch after the last improvement (epoch 0). -/
theorem C3_witness :
    (1 : Nat) < 5 ∧
    improves (lossSeq (fun e (m : ℚ) => m + e) 0 (fun q => q))
      (lastImp (lossSeq (fun e (m : ℚ) => m + e) 0 (fun q => q)) 1) ∧
    (∀ i, lastImp (lossSeq (fun e (m : ℚ) => m + e) 0 (fun q => q)) 1 < i →
      i ≤ 1 → ¬ improves (lossSeq (fun e (m : ℚ) => m + e) 0 (fun q => q)) i) ∧
    1 = lastImp (lossSeq (fun e (m : ℚ) => m + e) 0 (fun q => q)) 1 + (0 + 1) ∧
    ∀ x < 1, tsliSpec (lossSeq (fun e (m : ℚ) => m + e) 0 (fun q => q)) x ≤ 0 :=
  (C3_early_stop_timing (fun e (m : ℚ) => m + e) (fun q => q) 0 5 false 0
    ⟨[(CKey.epoch 0, 0), (CKey.epoch 1, 1), (CKey.earlystop, 0)], [], 2, some 1, 0⟩
    (by rfl) 1).mp (by rfl)

/-- Claim C10: with `n_epochs = 0` the loop body never executes and `_train`
raises the unbound-variable error at `self.n_epochs = epoch + 1`; a normal
return is only possible when `n_epochs ≥ 1`. -/
theorem C10_zero_epochs_unbound {M : Type} (upd : Nat → M → M)
    (vloss : Option (M → ℚ)) (rounds : Nat) (hl : Bool) (init : M) :
    trainRun upd vloss rounds 0 hl init = .error .unboundVariable ∧
    ∀ n r, trainRun upd vloss rounds n hl init = .ok r → 1 ≤ n := by
  refine ⟨trainRun_zero upd vloss rounds hl init, fun n r h => ?_⟩
  cases n with
  | zero => rw [trainRun_zero] at h; cases h
  | succ n => omega

/-- Witness for C10 at a concrete configuration. -/
theorem C10_witness :
    trainRun (fun _ (m : ℚ) => m) none 20 0 true 0 = .error .unboundVariable ∧
    (1 : Nat) ≤ 1 :=
  ⟨(C10_zero_epochs_unbound (fun _ (m : ℚ) => m) none 20 true 0).1,
   (C10_zero_epochs_unbound (fun _ (m : ℚ) => m) none 20 false 0).2 1
     ⟨[(CKey.epoch 0, 0)], [], 1, none, 0⟩ (by rfl)⟩

/-- Claim C6, code bug: a concrete run with a logger configured where early
stopping fires at epoch `1` (constant validation loss, patience `0`): epoch
`1` completed — its checkpoint was written and it is counted in
`n_epochs_run = 2` — but the logger was invoked only for epoch `0`, because
the `break` statement executes before the `if self.logger is not None:` block
of that iteration.  This contradicts the docstring "logger : a function that
… is called after every epoch". -/
theorem C6_logger_skipped_on_break :
    (trainRun (fun _ (m : ℚ) => m) (some fun _ => (0 : ℚ)) 0 5 true 0).map
      (fun r => (r.loggerCalls, r.n_epochs_run, r.brokeAt,
        (epochEntries r.checkpoints).map Prod.fst)) =
    .ok ([0], 2, some 1, [0, 1]) := by rfl

/-! ## The prediction aggregator (`DeepReisz.predict`) -/

/-- Error raised when `torch.load` hits a missing checkpoint file raises `FileNotFoundError`. -/
inductive PredictErr where
  | notFound
deriving DecidableEq, Repr

/-- The runtime dispatch on the `model` argument of `DeepReisz.predict`:
the string tags `'avg'`, `'final'`, `'earlystop'`, an integer epoch index
(`isinstance(model, int)`), or any other value (which matches none of the
`if` branches). -/
inductive ModelSel where
  | avg
  | final
  | earlystop
  | epochIdx (i : Nat)
  | other (tag : String)
deriving DecidableEq, Repr

/-- What a `predict` call returns when it does not raise: a flat vector, a
triple of flat vectors (mean and the two percentile bands), or Python `None`
(when every `if` branch of `predict` is skipped). -/
inductive POut where
  | vec (v : List ℚ)
  | vecBands (mean lo hi : List ℚ)
  | pynone
deriving DecidableEq, Repr

/-- Embedding of `torch.load(os.path.join(self.model_dir, key))`. -/
def loadKey {M : Type} (chks : List (CKey × M)) (k : CKey) : Except PredictErr M :=
  match storeLookup chks k with
  | some m => .ok m
  | none => .error .notFound

/-- Column `j` of the `(epochs × n)` prediction matrix `preds`. -/
def colGet (rows : List (List ℚ)) (j : Nat) : List ℚ :=
  rows.map (fun r => r.getD j 0)

/-- Number of columns of the prediction matrix (length of its first row). -/
def outLen (rows : List (List ℚ)) : Nat := (rows.headD []).length

/-- Embedding of `np.mean(preds, axis=0)`: the per-sample mean across the ensemble axis. -/
def colMean (rows : List (List ℚ)) : List ℚ :=
  (List.range (outLen rows)).map (fun j => (colGet rows j).sum / (rows.length : ℚ))

/-- Ascending sort of one column, as `np.percentile` performs internally. -/
def sortQ (xs : List ℚ) : List ℚ := xs.insertionSort (· ≤ ·)

/-- Linear interpolation into a sorted list at fractional position `h`
(the default `'linear'` method of `np.percentile`): with `i = ⌊h⌋`, the value
is `s[i] + (h - i) * (s[i+1] - s[i])`, clamped to the last element when
`i + 1` is out of range. -/
def interpSorted (s : List ℚ) (h : ℚ) : ℚ :=
  let i : Nat := (⌊h⌋).toNat
  if i + 1 < s.length then
    s.getD i 0 + (h - (i : ℚ)) * (s.getD (i + 1) 0 - s.getD i 0)
  else
    s.getD (s.length - 1) 0

/-- Embedding of `np.percentile(xs, q)` with the default linear-interpolation method:
interpolate the sorted data at virtual index `(len - 1) * q / 100`. -/
def percentile (xs : List ℚ) (q : ℚ) : ℚ :=
  interpSorted (sortQ xs) (((xs.length - 1 : Nat) : ℚ) * q / 100)

/-- Embedding of `np.percentile(preds, q, axis=0)`: per-sample percentile across the
ensemble axis. -/
def colPercentile (rows : List (List ℚ)) (q : ℚ) : List ℚ :=
  (List.range (outLen rows)).map (fun j => percentile (colGet rows j) q)

/-- Embedding of `DeepReisz.predict`: dispatch on `model`.  `'avg'` loads every checkpoint
with epoch index in `np.arange(burn_in, n_epochs)`, evaluates each on the
input (`evalT`), and returns the per-sample mean — plus, when `alpha` is
given, the `100*alpha/2` and `100*(1-alpha/2)` percentile bands.  `'final'`
loads `epoch{n_epochs - 1}`, `'earlystop'` loads the `earlystop` file, an
integer loads `epoch{i}`; any other `model` value falls through every branch
and the function returns Python `None`. -/
def predict {M : Type} (chks : List (CKey × M)) (n_epochs : Nat)
    (evalT : M → List ℚ) (sel : ModelSel) (burn_in : Nat) (alpha : Option ℚ) :
    Except PredictErr POut :=
  match sel with
  | .avg =>
    match (List.range' burn_in (n_epochs - burn_in)).mapM
        (fun i => loadKey chks (CKey.epoch i)) with
    | .error err => .error err
    | .ok ms =>
      let preds := ms.map evalT
      match alpha with
      | none => .ok (.vec (colMean preds))
      | some a => .ok (.vecBands (colMean preds)
          (colPercentile preds (100 * a / 2))
          (colPercentile preds (100 * (1 - a / 2))))
  | .final => (loadKey chks (CKey.epoch (n_epochs - 1))).map (fun m => .vec (evalT m))
  | .earlystop => (loadKey chks CKey.earlystop).map (fun m => .vec (evalT m))
  | .epochIdx i => (loadKey chks (CKey.epoch i)).map (fun m => .vec (evalT m))
  | .other _ => .ok .pynone

/-- Claim C7: after a `fit` without a validation set no `earlystop` file
exists, so `predict(model='earlystop')` raises `FileNotFoundError`
(NotFound). -/
theorem C7_earlystop_notfound {M : Type} (upd : Nat → M → M)
    (rounds n_epochs : Nat) (hl : Bool) (init : M) (r : TrainResult M)
    (h : trainRun upd none rounds n_epochs hl init = .ok r)
    (evalT : M → List ℚ) (burn_in : Nat) (alpha : Option ℚ) :
    predict r.checkpoints r.n_epochs_run evalT ModelSel.earlystop burn_in alpha =
      .error .notFound := by
  cases n_epochs with
  | zero => rw [trainRun_zero] at h; cases h
  | succ n =>
    rw [trainRun_none_eq upd init rounds (n + 1) hl (by omega)] at h
    rw [Except.ok.injEq] at h
    subst h
    simp [predict, loadKey, storeLookup_chksUpTo_earlystop, Except.map]

/-- Witness for C7: a one-epoch run without validation, then
`predict(model='earlystop')`. -/
theorem C7_witness :
    trainRun (fun _ (m : ℚ) => m) none 20 1 false 0 =
      .ok ⟨[(CKey.epoch 0, 0)], [], 1, none, 0⟩ ∧
    predict (⟨[(CKey.epoch 0, 0)], [], 1, none, (0 : ℚ)⟩ : TrainResult ℚ).checkpoints
        1 (fun q => [q]) ModelSel.earlystop 0 none = .error .notFound :=
  ⟨by rfl,
   C7_earlystop_notfound (fun _ (m : ℚ) => m) 20 1 false 0
     ⟨[(CKey.epoch 0, 0)], [], 1, none, 0⟩ (by rfl) (fun q => [q]) 0 none⟩

/-- A list comprehension of `torch.load` calls over indices that are all
present in the store succeeds and returns the stored models in order. -/
theorem mapM_loadKey_ok {M : Type} (chks : List (CKey × M)) (mdl : Nat → M) :
    ∀ l : List Nat, (∀ i ∈ l, storeLookup chks (CKey.epoch i) = some (mdl i)) →
      l.mapM (fun i => loadKey chks (CKey.epoch i)) = Except.ok (l.map mdl)
  | [], _ => rfl
  | i :: l, h => by
    rw [List.mapM_cons,
      mapM_loadKey_ok chks mdl l (fun j hj => h j (List.mem_cons_of_mem _ hj))]
    rw [loadKey, h i (List.mem_cons_self _ _)]
    rfl

/-- Claim C4: `predict(T, model='avg', burn_in=b)` loads exactly the
checkpoints with epoch indices `b, b+1, …, N-1` (`np.arange(burn_in,
n_epochs)` — `List.range' b (N - b)`), evaluates each on the input, and
returns the per-sample mean (`colMean`) over exactly that ensemble. -/
theorem C4_avg_uses_burnin_to_final {M : Type} (chks : List (CKey × M))
    (N burn_in : Nat) (evalT : M → List ℚ) (mdl : Nat → M)
    (hm : ∀ i, burn_in ≤ i → i < N →
      storeLookup chks (CKey.epoch i) = some (mdl i)) :
    predict chks N evalT ModelSel.avg burn_in none =
      .ok (.vec (colMean ((List.range' burn_in (N - burn_in)).map
        (fun i => evalT (mdl i))))) := by
  rw [predict]
  have hmapM : (List.range' burn_in (N - burn_in)).mapM
      (fun i => loadKey chks (CKey.epoch i)) =
      Except.ok ((List.range' burn_in (N - burn_in)).map mdl) := by
    refine mapM_loadKey_ok chks mdl _ (fun i hi => ?_)
    rw [List.mem_range'_1] at hi
    exact hm i (by omega) (by omega)
  rw [hmapM]
  dsimp only
  rw [List.map_map]
  rfl

/-- Witness for C4: five checkpoints, `burn_in = 2`: the result is the mean
of exactly the epoch-2, 3, 4 checkpoints, `(3 + 6 + 9)/3 = 6`. -/
theorem C4_witness :
    (∀ i, 2 ≤ i → i < 5 →
      storeLookup [(CKey.epoch 0, [(10 : ℚ)]), (CKey.epoch 1, [20]),
          (CKey.epoch 2, [3]), (CKey.epoch 3, [6]), (CKey.epoch 4, [9])]
        (CKey.epoch i) =
        some ([[(10 : ℚ)], [20], [3], [6], [9]].getD i [])) ∧
    predict [(CKey.epoch 0, [(10 : ℚ)]), (CKey.epoch 1, [20]),
        (CKey.epoch 2, [3]), (CKey.epoch 3, [6]), (CKey.epoch 4, [9])]
      5 (fun v => v) ModelSel.avg 2 none =
      .ok (.vec (colMean ((List.range' 2 (5 - 2)).map
        (fun i => [[(10 : ℚ)], [20], [3], [6], [9]].getD i [])))) ∧
    colMean ((List.range' 2 (5 - 2)).map
        (fun i => [[(10 : ℚ)], [20], [3], [6], [9]].getD i [])) = [6] :=
  ⟨by intro i h1 h2; interval_cases i <;> rfl,
   C4_avg_uses_burnin_to_final _ 5 2 (fun v => v) _
     (by intro i h1 h2; interval_cases i <;> rfl),
   by rfl⟩

/-- Whether a `predict` call raised an exception (a caller-visible failure)
rather than returning a value. -/
def isFailure : Except PredictErr POut → Bool
  | .error _ => true
  | .ok _ => false

/-- Claim C5, counterexample: `predict` with an invalid policy value (the string
`"foo"`) does **not** surface a caller-visible failure: it falls through every
`if` branch and returns Python `None`. -/
theorem C5_counterexample :
    isFailure (predict ([] : List (CKey × ℚ)) 1 (fun q => [q])
      (ModelSel.other "foo") 0 none) = false ∧
    predict ([] : List (CKey × ℚ)) 1 (fun q => [q])
      (ModelSel.other "foo") 0 none = .ok POut.pynone :=
  ⟨rfl, rfl⟩

/-- Claim C5, amended: for every invalid selection policy, `predict` silently
returns Python `None` (no branch taken, no exception raised). -/
theorem C5_invalid_policy_returns_none {M : Type} (chks : List (CKey × M))
    (N : Nat) (evalT : M → List ℚ) (tag : String) (burn_in : Nat)
    (alpha : Option ℚ) :
    predict chks N evalT (ModelSel.other tag) burn_in alpha = .ok POut.pynone ∧
    isFailure (predict chks N evalT (ModelSel.other tag) burn_in alpha) = false :=
  ⟨rfl, rfl⟩

theorem map_getD_range (r : List ℚ) :
    (List.range r.length).map (fun j => r.getD j 0) = r := by
  apply List.ext_getElem
  · simp
  · intro i h1 h2
    simp [List.getD_eq_getElem?_getD, List.getElem?_eq_getElem h2]

/-- Computing `np.mean` over a single-row ensemble is that row. -/
theorem colMean_singleton (r : List ℚ) : colMean [r] = r := by
  unfold colMean outLen colGet
  simp only [List.headD_cons, List.length_cons, List.length_nil, List.map_cons,
    List.map_nil, List.sum_cons, List.sum_nil, zero_add, Nat.cast_one, add_zero,
    div_one]
  exact map_getD_range r

/-- Claim C8: when the averaging ensemble has size one (one recorded epoch,
`burn_in = 0`), `predict(model='avg')` returns the same value as
`predict(model='final')`. -/
theorem C8_avg_singleton_eq_final {M : Type} (chks : List (CKey × M))
    (evalT : M → List ℚ) (m : M)
    (h : storeLookup chks (CKey.epoch 0) = some m) :
    predict chks 1 evalT ModelSel.avg 0 none =
      predict chks 1 evalT ModelSel.final 0 none := by
  rw [predict, predict]
  have h1 : (List.range' 0 (1 - 0)).mapM (fun i => loadKey chks (CKey.epoch i)) =
      Except.ok [m] :=
    mapM_loadKey_ok chks (fun _ => m) [0] (by intro i hi; simp at hi; subst hi; exact h)
  rw [h1]
  dsimp only
  simp only [List.map_cons, List.map_nil]
  rw [colMean_singleton]
  have h2 : (1 : Nat) - 1 = 0 := rfl
  rw [h2, loadKey, h]
  rfl

/-- Witness for C8: a single-checkpoint store. -/
theorem C8_witness :
    storeLookup [(CKey.epoch 0, [(7 : ℚ), 9])] (CKey.epoch 0) = some [(7 : ℚ), 9] ∧
    predict [(CKey.epoch 0, [(7 : ℚ), 9])] 1 (fun v => v) ModelSel.avg 0 none =
      predict [(CKey.epoch 0, [(7 : ℚ), 9])] 1 (fun v => v) ModelSel.final 0 none :=
  ⟨by rfl,
   C8_avg_singleton_eq_final [(CKey.epoch 0, [(7 : ℚ), 9])] (fun v => v)
     [(7 : ℚ), 9] (by rfl)⟩

theorem sortQ_sorted (xs : List ℚ) : List.Sorted (· ≤ ·) (sortQ xs) :=
  List.sorted_insertionSort _ xs

theorem sortQ_length (xs : List ℚ) : (sortQ xs).length = xs.length :=
  (List.perm_insertionSort _ xs).length_eq

theorem sorted_getD_mono {s : List ℚ} (hs : List.Sorted (· ≤ ·) s) {i j : Nat}
    (hij : i ≤ j) (hj : j < s.length) : s.getD i 0 ≤ s.getD j 0 := by
  have hi : i < s.length := by omega
  rw [List.getD_eq_getElem?_getD, List.getD_eq_getElem?_getD,
    List.getElem?_eq_getElem hi, List.getElem?_eq_getElem hj]
  simp only [Option.getD_some]
  have := hs.rel_get_of_le (a := ⟨i, hi⟩) (b := ⟨j, hj⟩) hij
  simpa using this

/-- Linear interpolation into a sorted list is monotone in the virtual
index. -/
theorem interpSorted_mono (s : List ℚ) (hs : List.Sorted (· ≤ ·) s)
    {h1 h2 : ℚ} (h0 : 0 ≤ h1) (hle : h1 ≤ h2)
    (hub : h2 ≤ ((s.length - 1 : Nat) : ℚ)) :
    interpSorted s h1 ≤ interpSorted s h2 := by
  rcases Nat.eq_zero_or_pos s.length with hn | hn
  · rw [List.length_eq_zero] at hn
    subst hn
    simp [interpSorted]
  · have h20 : 0 ≤ h2 := le_trans h0 hle
    have hf1 : (0 : ℤ) ≤ ⌊h1⌋ := Int.floor_nonneg.mpr h0
    have hf2 : (0 : ℤ) ≤ ⌊h2⌋ := Int.floor_nonneg.mpr h20
    simp only [interpSorted]
    set i1 : Nat := (⌊h1⌋).toNat with hi1def
    set i2 : Nat := (⌊h2⌋).toNat with hi2def
    have hc1 : (i1 : ℚ) = ((⌊h1⌋ : ℤ) : ℚ) := by
      rw [hi1def]
      exact_mod_cast congrArg (fun z : ℤ => (z : ℚ)) (Int.toNat_of_nonneg hf1)
    have hc2 : (i2 : ℚ) = ((⌊h2⌋ : ℤ) : ℚ) := by
      rw [hi2def]
      exact_mod_cast congrArg (fun z : ℤ => (z : ℚ)) (Int.toNat_of_nonneg hf2)
    have hle1 : (i1 : ℚ) ≤ h1 := by rw [hc1]; exact Int.floor_le h1
    have hle2 : (i2 : ℚ) ≤ h2 := by rw [hc2]; exact Int.floor_le h2
    have hlt1 : h1 < (i1 : ℚ) + 1 := by rw [hc1]; exact_mod_cast Int.lt_floor_add_one h1
    have hi12 : i1 ≤ i2 := by
      rw [hi1def, hi2def]
      exact Int.toNat_le_toNat (Int.floor_mono hle)
    have hi2n : i2 ≤ s.length - 1 := by
      have : (i2 : ℚ) ≤ ((s.length - 1 : Nat) : ℚ) := le_trans hle2 hub
      exact_mod_cast this
    rcases eq_or_lt_of_le hi12 with heq | hlt
    · rw [← heq]
      by_cases c : i1 + 1 < s.length
      · rw [if_pos c, if_pos c]
        have hd : 0 ≤ s.getD (i1 + 1) 0 - s.getD i1 0 := by
          have := sorted_getD_mono hs (Nat.le_succ i1) c
          linarith
        have := mul_le_mul_of_nonneg_right (sub_le_sub_right hle (i1 : ℚ)) hd
        linarith
      · rw [if_neg c, if_neg c]
    · have hc1' : i1 + 1 < s.length := by omega
      have hstep1 : s.getD i1 0 + (h1 - (i1 : ℚ)) * (s.getD (i1 + 1) 0 - s.getD i1 0) ≤
          s.getD (i1 + 1) 0 := by
        have hd : 0 ≤ s.getD (i1 + 1) 0 - s.getD i1 0 := by
          have := sorted_getD_mono hs (Nat.le_succ i1) hc1'
          linarith
        have ht1 : h1 - (i1 : ℚ) ≤ 1 := by linarith
        have := mul_le_of_le_one_left hd ht1
        linarith
      have hstep2 : s.getD (i1 + 1) 0 ≤ s.getD i2 0 :=
        sorted_getD_mono hs (by omega) (by omega)
      have hstep3 : s.getD i2 0 ≤
          (if i2 + 1 < s.length then
            s.getD i2 0 + (h2 - (i2 : ℚ)) * (s.getD (i2 + 1) 0 - s.getD i2 0)
          else s.getD (s.length - 1) 0) := by
        by_cases c2 : i2 + 1 < s.length
        · rw [if_pos c2]
          have hd2 : 0 ≤ s.getD (i2 + 1) 0 - s.getD i2 0 := by
            have := sorted_getD_mono hs (Nat.le_succ i2) c2
            linarith
          have ht2 : 0 ≤ h2 - (i2 : ℚ) := by linarith
          nlinarith
        · rw [if_neg c2]
          exact sorted_getD_mono hs hi2n (by omega)
      rw [if_pos hc1']
      exact le_trans hstep1 (le_trans hstep2 hstep3)

/-- Fact: `np.percentile` with linear interpolation is monotone in the requested
percentile, for percentiles within `[0, 100]`. -/
theorem percentile_mono (xs : List ℚ) {q1 q2 : ℚ} (h0 : 0 ≤ q1) (h12 : q1 ≤ q2)
    (h100 : q2 ≤ 100) : percentile xs q1 ≤ percentile xs q2 := by
  unfold percentile
  have hL0 : (0 : ℚ) ≤ ((xs.length - 1 : Nat) : ℚ) := Nat.cast_nonneg _
  apply interpSorted_mono (sortQ xs) (sortQ_sorted xs)
  · positivity
  · apply div_le_div_of_nonneg_right ?_ (by norm_num)
    exact mul_le_mul_of_nonneg_left h12 hL0
  · rw [sortQ_length]
    calc ((xs.length - 1 : Nat) : ℚ) * q2 / 100 ≤
        ((xs.length - 1 : Nat) : ℚ) * 100 / 100 := by
          apply div_le_div_of_nonneg_right ?_ (by norm_num)
          exact mul_le_mul_of_nonneg_left h100 hL0
      _ = ((xs.length - 1 : Nat) : ℚ) := by ring

theorem getD_map_range (n j : Nat) (f : Nat → ℚ) :
    ((List.range n).map f).getD j 0 = if j < n then f j else 0 := by
  by_cases hj : j < n
  · rw [if_pos hj, List.getD_eq_getElem?_getD,
      List.getElem?_eq_getElem (by simpa using hj)]
    simp
  · rw [if_neg hj, List.getD_eq_getElem?_getD, List.getElem?_eq_none (by simpa using hj)]
    rfl

/-- Claim C9, counterexample: the claim `lower ≤ mean ≤ upper` fails.  With four
checkpoints evaluating to `0, 100, 100, 100` on a one-row input and
`alpha = 4/5` (a legal tail probability, `0 < 4/5 < 1`), `predict` returns
mean `75`, lower band `np.percentile(·, 40) = 100`, upper band
`np.percentile(·, 60) = 100`: the lower band exceeds the mean. -/
theorem C9_counterexample :
    (0 : ℚ) < 4 / 5 ∧ (4 / 5 : ℚ) < 1 ∧
    predict [(CKey.epoch 0, [(0 : ℚ)]), (CKey.epoch 1, [100]),
        (CKey.epoch 2, [100]), (CKey.epoch 3, [100])] 4 (fun v => v)
      ModelSel.avg 0 (some (4 / 5)) =
      .ok (.vecBands [75] [100] [100]) ∧
    ¬ (([100] : List ℚ).getD 0 0 ≤ ([75] : List ℚ).getD 0 0) :=
  ⟨by norm_num, by norm_num, by rfl, by norm_num⟩

/-- Claim C9, amended: for every `0 < alpha < 1`, the returned bands satisfy
`lower ≤ upper` element-wise (percentile is monotone in the percentile rank);
the mean, however, need not lie between them (see the counterexample). -/
theorem C9_amended_lower_le_upper {M : Type} (chks : List (CKey × M)) (N : Nat)
    (evalT : M → List ℚ) (burn_in : Nat) (a : ℚ) (h0 : 0 < a) (h1 : a < 1)
    (m lo hi : List ℚ)
    (hp : predict chks N evalT ModelSel.avg burn_in (some a) =
      .ok (.vecBands m lo hi)) :
    ∀ j, lo.getD j 0 ≤ hi.getD j 0 := by
  rw [predict] at hp
  rcases hmm : (List.range' burn_in (N - burn_in)).mapM
      (fun i => loadKey chks (CKey.epoch i)) with err | ms
  · rw [hmm] at hp; cases hp
  · rw [hmm] at hp
    dsimp only at hp
    rw [Except.ok.injEq, POut.vecBands.injEq] at hp
    obtain ⟨-, hlo, hhi⟩ := hp
    subst hlo
    subst hhi
    intro j
    rw [colPercentile, colPercentile, getD_map_range, getD_map_range]
    by_cases hj : j < outLen (ms.map evalT)
    · rw [if_pos hj, if_pos hj]
      apply percentile_mono
      · linarith
      · linarith
      · linarith
    · rw [if_neg hj, if_neg hj]

/-- Witness for the amended C9: two checkpoints with two-row outputs,
`alpha = 1/2`. -/
theorem C9_witness :
    (0 : ℚ) < 1 / 2 ∧ (1 / 2 : ℚ) < 1 ∧
    predict [(CKey.epoch 0, [(1 : ℚ), 5]), (CKey.epoch 1, [3, 2])] 2
      (fun v => v) ModelSel.avg 0 (some (1 / 2)) =
      .ok (.vecBands [2, 7/2] [3/2, 11/4] [5/2, 17/4]) ∧
    ∀ j, ([3/2, 11/4] : List ℚ).getD j 0 ≤ ([5/2, 17/4] : List ℚ).getD j 0 :=
  ⟨by norm_num, by norm_num, by rfl,
   C9_amended_lower_le_upper [(CKey.epoch 0, [(1 : ℚ), 5]), (CKey.epoch 1, [3, 2])]
     2 (fun v => v) 0 (1 / 2) (by norm_num) (by norm_num) [2, 7/2] [3/2, 11/4]
     [5/2, 17/4] (by rfl)⟩

-- sanity: numpy semantics of the linear-interpolation percentile
example : percentile [1, 2, 3, 4] 25 = 7/4 := by rfl
example : percentile [0, 100, 100, 100] 40 = 100 := by rfl
example : percentile [3, 1, 2] 50 = 2 := by rfl
example : percentile [1, 2] 100 = 2 := by rfl
example : percentile [1, 2] 0 = 1 := by rfl

-- sanity: a 3-epoch run without validation
example :
    (trainRun (fun e (m : ℚ) => m + e) none 20 3 true 0).map
      (fun r => (r.loggerCalls, r.n_epochs_run, r.brokeAt, epochEntries r.checkpoints)) =
    .ok ([0, 1, 2], 3, none, [(0, 0), (1, 1), (2, 3)]) := by rfl

-- sanity: growing validation loss, patience 1: break fires at epoch 2
example :
    (trainRun (fun e (m : ℚ) => m + e) (some fun q => q) 1 9 false 0).map
      (fun r => (r.n_epochs_run, r.brokeAt, r.learner)) =
    .ok (3, some 2, 0) := by rfl
